import Mathlib

/-!
# Verification of the git-reviewer core (`reviewers.go`, `gitsh.go`)

A shallow embedding of the pure core of the `gitreviewers` Go package:
the path/extension filter policy, the `Stats` aggregation via `AddToSet`,
the line processing of `FindFiles`, and the rank-and-truncate tail of
`FindReviewers`.  Go strings are modelled as lists of characters and the
relevant `strings` standard-library functions are embedded directly.
-/

set_option autoImplicit false

namespace GitReviewers

/-- Go strings, modelled as lists of characters. -/
abbrev GoStr := List Char

/-- `strings.HasSuffix(s, suffix)`: `suffix` is a suffix of `s`. -/
def hasSuffix (s suffix : GoStr) : Bool :=
  suffix.isSuffixOf s

/-- `strings.TrimPrefix(s, pre)`: returns `s` without the leading `pre`;
if `s` does not start with `pre`, `s` is returned unchanged. -/
def trimPrefix (s pre : GoStr) : GoStr :=
  if pre.isPrefixOf s then s.drop pre.length else s

/-- `strings.Trim(s, " ")`: `s` with all leading and trailing space
characters removed. -/
def trimSpaces (s : GoStr) : GoStr :=
  ((s.dropWhile (· == ' ')).reverse.dropWhile (· == ' ')).reverse

/-- `Stat` contains contributor name and commit count summary
(`reviewers.go`). -/
structure Stat where
  Reviewer : GoStr
  Count : Int
deriving DecidableEq

/-- `Stat.String`: `fmt.Sprintf("  %d\t%s", cs.Count, cs.Reviewer)`. -/
def statString (cs : Stat) : GoStr :=
  [' ', ' '] ++ (toString cs.Count).data ++ ['\t'] ++ cs.Reviewer

/-- `Stats.AddToSet(val)`: scan for the first entry with a matching
`Reviewer`; if found, add `val.Count` to it in place; otherwise append
`val` at the end (`reviewers.go`). -/
def AddToSet : List Stat → Stat → List Stat
  | [], val => [val]
  | stat :: rest, val =>
      if stat.Reviewer = val.Reviewer then
        { stat with Count := stat.Count + val.Count } :: rest
      else
        stat :: AddToSet rest val

/-- The `Reviewer` configuration struct (`reviewers.go`). -/
structure Reviewer where
  ShowFiles : Bool := false
  Verbose : Bool := false
  Since : GoStr := []
  IgnoredExtensions : List GoStr := []
  OnlyExtensions : List GoStr := []
  IgnoredPaths : List GoStr := []
  OnlyPaths : List GoStr := []
deriving DecidableEq

/-- `defaultIgnoreExt`: filetypes that are more often machine-edited
(`reviewers.go`). -/
def defaultIgnoreExt : List GoStr :=
  ["svg".data, "json".data, "nock".data, "xml".data]

/-- `considerExt(path, opts)` (`reviewers.go`): build the effective
ignore list by appending the caller's `IgnoredExtensions` to
`defaultIgnoreExt`; accept everything when both lists are empty; when
the allow list is non-empty accept iff the path ends with some allowed
extension; otherwise accept iff the path ends with no ignored
extension. -/
def considerExt (path : GoStr) (opts : Reviewer) : Bool :=
  let ignExt := defaultIgnoreExt ++ opts.IgnoredExtensions
  let lAllow := opts.OnlyExtensions.length
  let lIgnore := ignExt.length
  if lAllow = 0 ∧ lIgnore = 0 then
    true
  else if lAllow > 0 then
    opts.OnlyExtensions.any (fun ext => hasSuffix path ext)
  else if lIgnore > 0 then
    ignExt.all (fun ext => !hasSuffix path ext)
  else
    false

/-- `considerPath(path, opts)` (`reviewers.go`): accept everything when
both path lists are empty; when `OnlyPaths` is non-empty accept iff
stripping some entry as a prefix strictly shortens the path; otherwise
accept iff stripping each `IgnoredPaths` entry leaves the length
unchanged. -/
def considerPath (path : GoStr) (opts : Reviewer) : Bool :=
  let lAllow := opts.OnlyPaths.length
  let lIgnore := opts.IgnoredPaths.length
  let pLen := path.length
  if lAllow = 0 ∧ lIgnore = 0 then
    true
  else if lAllow > 0 then
    opts.OnlyPaths.any (fun pre => decide ((trimPrefix path pre).length < pLen))
  else if lIgnore > 0 then
    opts.IgnoredPaths.all (fun pre => (trimPrefix path pre).length == pLen)
  else
    false

/-- The pure line processing of `Reviewer.FindFiles` (`reviewers.go`)
applied to the text `out` produced by `git diff master HEAD
--name-only`: split on newlines; space-trim each line into `l`; keep
`l` when it is non-empty and the RAW (untrimmed) line passes both
filters. -/
def findFilesLines (opts : Reviewer) (out : GoStr) : List GoStr :=
  (out.splitOn '\n').filterMap (fun line =>
    let l := trimSpaces line
    if 0 < l.length ∧ considerExt line opts = true ∧ considerPath line opts = true then
      some l
    else
      none)

/-- One iteration of the merge loop of `FindReviewers`
(`reviewers.go`): fold a received `Stats` value into the aggregate,
adding each entry with a non-empty reviewer via `AddToSet`. -/
def mergeStats (fs : List Stat) (stats : List Stat) : List Stat :=
  stats.foldl (fun acc stat =>
    if 0 < stat.Reviewer.length then AddToSet acc stat else acc) fs

/-- Accumulation of a list of stats one by one via `AddToSet`, starting
from the empty `Stats` collection. -/
def accumulate (l : List Stat) : List Stat :=
  l.foldl AddToSet []

/-- What the Go standard library guarantees for the call
`sort.Sort(sort.Reverse(finalStats))` in `FindReviewers` (with
`Stats.Less` comparing `Count`): the result is a permutation of the
input sorted by non-increasing `Count`.  `sort.Sort` is documented as
not guaranteed to be stable, so the relative order of entries with
equal `Count` is not specified; its implementation is not part of this
repository, so it is modelled relationally by this contract. -/
def SortRevSpec (input output : List Stat) : Prop :=
  input.Perm output ∧ output.Sorted (fun a b => b.Count ≤ a.Count)

/-- Model of `Reviewer.FindReviewers` (`reviewers.go`) after the
fan-in: `merged` is the sequence of `Stats` values received from the
merge channel in arrival order, and `sortImpl` stands for the standard
library's `sort.Sort(sort.Reverse(·))`, which sorts the aggregate in
place.  The function merges every received stat with a non-empty
reviewer into `finalStats` via `AddToSet`, sorts, truncates to at most
3 entries and formats each as a display line; its only return
statement is `return results, nil`, so the error component of the
result is the literal `nil`. -/
def findReviewersResult (sortImpl : List Stat → List Stat)
    (merged : List (List Stat)) : List GoStr × Option GoStr :=
  let finalStats := merged.foldl mergeStats []
  let sorted := sortImpl finalStats
  let maxStats := min 3 sorted.length
  ((sorted.take maxStats).map statString, none)

/-- Modelled from the spec: the channel-producing
`committerCounts(path, since)` called by `FindReviewers` is not among
the sources (`gitsh.go` holds only a non-channel variant), so the
fan-in input is modelled from §4.4 of the design: each per-path query
independently delivers a `Stats` sequence — and only a `Stats`
sequence, since the channel element type carries no error value —
while a failed query delivers no stats.  `mergeChans` then forwards
only the non-empty `Stats` values to the merge loop.  `outcomes` lists
each per-path query's result (stats or an error message) in arrival
order; the result is the sequence of `Stats` values reaching the merge
loop. -/
def mergeChansModel (outcomes : List (Except GoStr (List Stat))) :
    List (List Stat) :=
  (outcomes.filterMap (fun o =>
    match o with
    | Except.ok s => some s
    | Except.error _ => none)).filter (fun s => decide (0 < s.length))

/-- Total commit count attributed to reviewer `r` by a stat list: the
sum of the counts of all entries bearing that reviewer. -/
def countOf : List Stat → GoStr → Int
  | [], _ => 0
  | st :: rest, r => (if st.Reviewer = r then st.Count else 0) + countOf rest r

/-- The number of distinct reviewer identities in a stat list. -/
def distinctReviewers (s : List Stat) : Nat :=
  (s.map Stat.Reviewer).dedup.length

/-! ## Concrete option values used in examples and witnesses -/

/-- Options with every caller-supplied filter list empty. -/
def noFilterOpts : Reviewer := {}

/-- Options with `OnlyPaths = ["v"]`. -/
def onlyPathsV : Reviewer := { OnlyPaths := [['v']] }

/-- Options with `OnlyPaths = ["a"]`. -/
def onlyPathsA : Reviewer := { OnlyPaths := [['a']] }

/-- Options with `OnlyPaths = ["", "b"]`: an empty entry next to a
non-empty one. -/
def onlyPathsEmptyB : Reviewer := { OnlyPaths := [[], ['b']] }

/-- Options with `IgnoredPaths = ["", "b"]`. -/
def ignoredPathsEmptyB : Reviewer := { IgnoredPaths := [[], ['b']] }

/-- Options with `OnlyExtensions = ["go"]` and the same string also in
`IgnoredExtensions`. -/
def onlyGoIgnoredGo : Reviewer :=
  { OnlyExtensions := ["go".data], IgnoredExtensions := ["go".data] }

/-- A concrete stat: alice with 2 commits. -/
def statA : Stat := ⟨"alice".data, 2⟩

/-- A concrete stat: alice with 1 commit. -/
def statA1 : Stat := ⟨"alice".data, 1⟩

/-- A concrete stat: bob with 1 commit. -/
def statB : Stat := ⟨"bob".data, 1⟩

/-- A concrete stat: bob with 3 commits. -/
def statB3 : Stat := ⟨"bob".data, 3⟩

/-- A concrete fan-in arrival sequence: bob's stats arrive before
alice's. -/
def mergedW : List (List Stat) := [[statB3], [statA]]

example : considerExt "a.go".data {} = true := by decide
example : considerExt "b.json".data {} = false := by decide
example : considerPath "vendor/c.go".data {} = true := by decide
example : considerPath ['a'] { OnlyPaths := [['a']] } = true := by decide
example : trimSpaces " a.go ".data = "a.go".data := by decide
example : findFilesLines {} "b.json \n".data = ["b.json".data] := by decide
example : accumulate [⟨"a".data, 2⟩, ⟨"b".data, 1⟩, ⟨"a".data, 1⟩]
    = [⟨"a".data, 3⟩, ⟨"b".data, 1⟩] := by decide
example : statString ⟨"Jane Doe <jane@x.com>".data, 7⟩
    = "  7\tJane Doe <jane@x.com>".data := by decide

/-! ## Characterizations of the filter policy -/

theorem trimPrefix_length_lt (p pre : GoStr) :
    (trimPrefix p pre).length < p.length ↔ pre.isPrefixOf p = true ∧ pre ≠ [] := by
  unfold trimPrefix
  by_cases h : pre.isPrefixOf p
  · rw [if_pos h]
    have hle : pre.length ≤ p.length :=
      (List.isPrefixOf_iff_prefix.mp h).length_le
    have hpos : pre ≠ [] ↔ 0 < pre.length := List.length_pos.symm
    simp only [List.length_drop, h, true_and, hpos]
    omega
  · rw [if_neg h]
    simp [h]

theorem trimPrefix_length_le (p pre : GoStr) :
    (trimPrefix p pre).length ≤ p.length := by
  unfold trimPrefix
  by_cases h : pre.isPrefixOf p
  · rw [if_pos h]
    simp [List.length_drop]
  · rw [if_neg h]

theorem considerPath_only (p : GoStr) (opts : Reviewer) (h : opts.OnlyPaths ≠ []) :
    considerPath p opts = true ↔
      ∃ pre ∈ opts.OnlyPaths, pre.isPrefixOf p = true ∧ pre ≠ [] := by
  have hl : 0 < opts.OnlyPaths.length := List.length_pos.mpr h
  unfold considerPath
  rw [if_neg (by omega), if_pos hl, List.any_eq_true]
  constructor
  · rintro ⟨pre, hmem, hpre⟩
    exact ⟨pre, hmem, (trimPrefix_length_lt p pre).mp (of_decide_eq_true hpre)⟩
  · rintro ⟨pre, hmem, hpre⟩
    exact ⟨pre, hmem, decide_eq_true ((trimPrefix_length_lt p pre).mpr hpre)⟩

theorem considerPath_ignored (p : GoStr) (opts : Reviewer)
    (h1 : opts.OnlyPaths = []) (h2 : opts.IgnoredPaths ≠ []) :
    considerPath p opts = true ↔
      ∀ pre ∈ opts.IgnoredPaths, pre.isPrefixOf p = false ∨ pre = [] := by
  have hl : 0 < opts.IgnoredPaths.length := List.length_pos.mpr h2
  have hz : opts.OnlyPaths.length = 0 := by simp [h1]
  unfold considerPath
  rw [if_neg (by omega), if_neg (by omega), if_pos hl, List.all_eq_true]
  refine forall₂_congr (fun pre hmem => ?_)
  rw [beq_iff_eq]
  have hle := trimPrefix_length_le p pre
  have hiff := trimPrefix_length_lt p pre
  constructor
  · intro heq
    by_cases hpre : pre.isPrefixOf p
    · by_cases hnil : pre = []
      · exact Or.inr hnil
      · exact absurd (hiff.mpr ⟨hpre, hnil⟩) (by omega)
    · exact Or.inl (by simp [hpre])
  · intro hcase
    have : ¬ (trimPrefix p pre).length < p.length := by
      intro hlt
      rcases hiff.mp hlt with ⟨hpre, hnil⟩
      rcases hcase with hc | hc
      · rw [hpre] at hc
        exact absurd hc (by simp)
      · exact hnil hc
    omega

theorem considerExt_only (p : GoStr) (opts : Reviewer) (h : opts.OnlyExtensions ≠ []) :
    considerExt p opts = true ↔
      ∃ ext ∈ opts.OnlyExtensions, hasSuffix p ext = true := by
  have hl : 0 < opts.OnlyExtensions.length := List.length_pos.mpr h
  unfold considerExt
  rw [if_neg (by omega), if_pos hl, List.any_eq_true]

/-- C1 (amended): with a non-empty `onlyPaths` list, `considerPath`
accepts a path iff some entry of `onlyPaths` is a NON-EMPTY prefix of
it (stripping such an entry strictly shortens the string, including
when the entry equals the whole path); in particular a non-empty path
exactly equal to a non-empty `onlyPaths` entry is ACCEPTED by the
only-paths rule. -/
theorem considerPath_onlyPaths_nonempty_prefix (p : GoStr) (opts : Reviewer)
    (h : opts.OnlyPaths ≠ []) :
    (considerPath p opts = true ↔
      ∃ pre ∈ opts.OnlyPaths, pre.isPrefixOf p = true ∧ pre ≠ []) ∧
    (p ∈ opts.OnlyPaths → p ≠ [] → considerPath p opts = true) := by
  refine ⟨considerPath_only p opts h, fun hmem hne => ?_⟩
  exact (considerPath_only p opts h).mpr
    ⟨p, hmem, List.isPrefixOf_iff_prefix.mpr (List.prefix_refl p), hne⟩

theorem considerPath_onlyPaths_nonempty_prefix_witness :
    (onlyPathsV.OnlyPaths ≠ []) ∧
    ((considerPath ['v', 'x'] onlyPathsV = true ↔
        ∃ pre ∈ onlyPathsV.OnlyPaths,
          pre.isPrefixOf ['v', 'x'] = true ∧ pre ≠ []) ∧
      (['v', 'x'] ∈ onlyPathsV.OnlyPaths →
        ['v', 'x'] ≠ ([] : GoStr) →
        considerPath ['v', 'x'] onlyPathsV = true)) :=
  ⟨by decide, considerPath_onlyPaths_nonempty_prefix ['v', 'x'] onlyPathsV (by decide)⟩

/-- C1 counterexample: with `onlyPaths = ["a"]` the path `"a"` has no
entry of `onlyPaths` as a strict prefix (the only entry equals the
whole path), yet `considerPath` ACCEPTS it — refuting the claimed
strict-prefix rule and its "exact full-string match is rejected"
consequence at this input. -/
theorem considerPath_exact_match_accepted :
    considerPath ['a'] onlyPathsA = true ∧
    ¬ ∃ pre ∈ onlyPathsA.OnlyPaths,
        pre.isPrefixOf ['a'] = true ∧ pre ≠ ['a'] := by
  decide

/-- C10: an empty-string entry in the path filter lists is inert for
every non-empty path: under the only-paths rule acceptance is
equivalent to some NON-EMPTY entry being a prefix (an empty entry never
causes acceptance), and under the ignored-paths rule acceptance is
equivalent to every entry being empty or not a prefix (an empty entry
never causes rejection), because stripping the empty prefix does not
strictly shorten the path. -/
theorem considerPath_empty_entry_inert (p : GoStr) (opts : Reviewer) (_hp : p ≠ []) :
    (opts.OnlyPaths ≠ [] →
      (considerPath p opts = true ↔
        ∃ pre ∈ opts.OnlyPaths, pre ≠ [] ∧ pre.isPrefixOf p = true)) ∧
    (opts.OnlyPaths = [] → opts.IgnoredPaths ≠ [] →
      (considerPath p opts = true ↔
        ∀ pre ∈ opts.IgnoredPaths, pre = [] ∨ pre.isPrefixOf p = false)) := by
  constructor
  · intro h
    rw [considerPath_only p opts h]
    exact exists_congr (fun pre => and_congr_right (fun _ => and_comm))
  · intro h1 h2
    rw [considerPath_ignored p opts h1 h2]
    exact forall₂_congr (fun pre _ => or_comm)

theorem considerPath_empty_entry_inert_witness :
    (['a'] ≠ ([] : GoStr)) ∧
    ((onlyPathsEmptyB.OnlyPaths ≠ [] →
      (considerPath ['a'] onlyPathsEmptyB = true ↔
        ∃ pre ∈ onlyPathsEmptyB.OnlyPaths,
          pre ≠ [] ∧ pre.isPrefixOf ['a'] = true)) ∧
    (onlyPathsEmptyB.OnlyPaths = [] →
      onlyPathsEmptyB.IgnoredPaths ≠ [] →
      (considerPath ['a'] onlyPathsEmptyB = true ↔
        ∀ pre ∈ onlyPathsEmptyB.IgnoredPaths,
          pre = [] ∨ pre.isPrefixOf ['a'] = false))) :=
  ⟨by decide, considerPath_empty_entry_inert ['a'] onlyPathsEmptyB (by decide)⟩

/-- C6: with a non-empty `onlyExtensions` list, `considerExt` accepts a
path iff the path ends with some entry of `onlyExtensions`; the ignore
lists are never consulted, so no path lacking all of those suffixes is
accepted regardless of `ignoredExtensions` or the built-in defaults. -/
theorem considerExt_onlyExtensions_exclusive (p : GoStr) (opts : Reviewer)
    (h : opts.OnlyExtensions ≠ []) :
    considerExt p opts = true ↔
      ∃ ext ∈ opts.OnlyExtensions, hasSuffix p ext = true :=
  considerExt_only p opts h

theorem considerExt_onlyExtensions_exclusive_witness :
    (onlyGoIgnoredGo.OnlyExtensions ≠ []) ∧
    (considerExt "b.json".data onlyGoIgnoredGo = true ↔
      ∃ ext ∈ onlyGoIgnoredGo.OnlyExtensions,
        hasSuffix "b.json".data ext = true) :=
  ⟨by decide, considerExt_onlyExtensions_exclusive "b.json".data onlyGoIgnoredGo (by decide)⟩

/-- C7: with all four caller-supplied filter lists empty, the filter
policy (`considerExt` AND `considerPath`) accepts `"a.go"` and
`"vendor/c.go"` but rejects `"b.json"`: the effective extension ignore
list is the built-in default set `{svg, json, nock, xml}` appended with
the (empty) caller list, and `"b.json"` ends with the default-ignored
`"json"`. -/
theorem noFilters_scenario :
    defaultIgnoreExt ++ ({} : Reviewer).IgnoredExtensions
        = ["svg".data, "json".data, "nock".data, "xml".data] ∧
    (considerExt "a.go".data {} && considerPath "a.go".data {}) = true ∧
    (considerExt "b.json".data {} && considerPath "b.json".data {}) = false ∧
    (considerExt "vendor/c.go".data {} && considerPath "vendor/c.go".data {}) = true ∧
    hasSuffix "b.json".data "json".data = true := by
  decide

/-! ## Properties of `AddToSet` and order-independent accumulation -/

theorem addToSet_cons_pos {st v : Stat} (rest : List Stat) (h : st.Reviewer = v.Reviewer) :
    AddToSet (st :: rest) v = { st with Count := st.Count + v.Count } :: rest := by
  simp [AddToSet, h]

theorem addToSet_cons_neg {st v : Stat} (rest : List Stat) (h : ¬ st.Reviewer = v.Reviewer) :
    AddToSet (st :: rest) v = st :: AddToSet rest v := by
  simp [AddToSet, h]

theorem countOf_addToSet (s : List Stat) (v : Stat) (r : GoStr) :
    countOf (AddToSet s v) r
      = countOf s r + (if v.Reviewer = r then v.Count else 0) := by
  induction s with
  | nil => simp [AddToSet, countOf]
  | cons st rest ih =>
      by_cases h : st.Reviewer = v.Reviewer
      · rw [addToSet_cons_pos rest h]
        simp only [countOf]
        by_cases hr : v.Reviewer = r
        · have hstr : st.Reviewer = r := by rw [h, hr]
          rw [if_pos hstr, if_pos hstr, if_pos hr]
          ring
        · have hstr : ¬ st.Reviewer = r := fun hc => hr (by rw [← h, hc])
          rw [if_neg hstr, if_neg hstr, if_neg hr]
          ring
      · rw [addToSet_cons_neg rest h]
        simp only [countOf, ih]
        ring

theorem countOf_eq_sum (l : List Stat) (r : GoStr) :
    countOf l r = (l.map (fun st => if st.Reviewer = r then st.Count else 0)).sum := by
  induction l with
  | nil => rfl
  | cons st rest ih => simp [countOf, ih]

theorem countOf_perm {l₁ l₂ : List Stat} (h : l₁.Perm l₂) (r : GoStr) :
    countOf l₁ r = countOf l₂ r := by
  rw [countOf_eq_sum, countOf_eq_sum]
  exact (h.map _).sum_eq

theorem countOf_foldl_addToSet (l : List Stat) (init : List Stat) (r : GoStr) :
    countOf (l.foldl AddToSet init) r = countOf init r + countOf l r := by
  induction l generalizing init with
  | nil => simp [countOf]
  | cons v rest ih =>
      simp only [List.foldl_cons, countOf]
      rw [ih, countOf_addToSet]
      ring

theorem countOf_accumulate (l : List Stat) (r : GoStr) :
    countOf (accumulate l) r = countOf l r := by
  rw [accumulate, countOf_foldl_addToSet]
  simp [countOf]

theorem reviewer_mem_addToSet {s : List Stat} {v b : Stat} (hb : b ∈ AddToSet s v) :
    b.Reviewer = v.Reviewer ∨ ∃ c ∈ s, b.Reviewer = c.Reviewer := by
  induction s with
  | nil =>
      simp only [AddToSet, List.mem_singleton] at hb
      exact Or.inl (by rw [hb])
  | cons st rest ih =>
      by_cases h : st.Reviewer = v.Reviewer
      · rw [addToSet_cons_pos rest h] at hb
        rcases List.mem_cons.mp hb with hb | hb
        · exact Or.inr ⟨st, List.mem_cons_self st rest, by rw [hb]⟩
        · exact Or.inr ⟨b, List.mem_cons_of_mem st hb, rfl⟩
      · rw [addToSet_cons_neg rest h] at hb
        rcases List.mem_cons.mp hb with hb | hb
        · exact Or.inr ⟨st, List.mem_cons_self st rest, by rw [hb]⟩
        · rcases ih hb with h1 | ⟨c, hc, he⟩
          · exact Or.inl h1
          · exact Or.inr ⟨c, List.mem_cons_of_mem st hc, he⟩

theorem pairwise_addToSet {s : List Stat} (v : Stat)
    (h : s.Pairwise (fun a b => a.Reviewer ≠ b.Reviewer)) :
    (AddToSet s v).Pairwise (fun a b => a.Reviewer ≠ b.Reviewer) := by
  induction s with
  | nil => simp [AddToSet]
  | cons st rest ih =>
      rcases List.pairwise_cons.mp h with ⟨hst, hrest⟩
      by_cases hc : st.Reviewer = v.Reviewer
      · rw [addToSet_cons_pos rest hc]
        exact List.pairwise_cons.mpr ⟨fun b hb => hst b hb, hrest⟩
      · rw [addToSet_cons_neg rest hc]
        refine List.pairwise_cons.mpr ⟨?_, ih hrest⟩
        intro b hb
        rcases reviewer_mem_addToSet hb with h1 | ⟨c, hcm, he⟩
        · rw [h1]; exact hc
        · rw [he]; exact hst c hcm

theorem pairwise_foldl_addToSet (l : List Stat) : ∀ init : List Stat,
    init.Pairwise (fun a b => a.Reviewer ≠ b.Reviewer) →
    (l.foldl AddToSet init).Pairwise (fun a b => a.Reviewer ≠ b.Reviewer) := by
  induction l with
  | nil => exact fun init h => h
  | cons v rest ih =>
      intro init h
      exact ih (AddToSet init v) (pairwise_addToSet v h)

theorem pairwise_accumulate (l : List Stat) :
    (accumulate l).Pairwise (fun a b => a.Reviewer ≠ b.Reviewer) :=
  pairwise_foldl_addToSet l [] (by simp)

/-- C3: accumulating any finite list of stats one by one via `AddToSet`
from the empty collection attributes to each reviewer exactly the sum
of the counts of all stats bearing that reviewer, so the totals are the
same for every accumulation order; and the resulting collection never
holds two entries with the same reviewer. -/
theorem addToSet_accumulation_order_independent (l₁ l₂ : List Stat) (h : l₁.Perm l₂) :
    (∀ r, countOf (accumulate l₁) r = countOf l₁ r) ∧
    (accumulate l₁).Pairwise (fun a b => a.Reviewer ≠ b.Reviewer) ∧
    (∀ r, countOf (accumulate l₁) r = countOf (accumulate l₂) r) := by
  refine ⟨fun r => countOf_accumulate l₁ r, pairwise_accumulate l₁, fun r => ?_⟩
  rw [countOf_accumulate, countOf_accumulate]
  exact countOf_perm h r

theorem addToSet_accumulation_order_independent_witness :
    ([statA, statB] : List Stat).Perm [statB, statA] ∧
    ((∀ r, countOf (accumulate [statA, statB]) r = countOf [statA, statB] r) ∧
      (accumulate [statA, statB]).Pairwise (fun a b => a.Reviewer ≠ b.Reviewer) ∧
      (∀ r, countOf (accumulate [statA, statB]) r = countOf (accumulate [statB, statA]) r)) :=
  ⟨by decide, addToSet_accumulation_order_independent [statA, statB] [statB, statA] (by decide)⟩

theorem addToSet_filter_frame (s : List Stat) (v : Stat) :
    (AddToSet s v).filter (fun st => decide (st.Reviewer ≠ v.Reviewer))
      = s.filter (fun st => decide (st.Reviewer ≠ v.Reviewer)) := by
  induction s with
  | nil => simp [AddToSet]
  | cons st rest ih =>
      by_cases h : st.Reviewer = v.Reviewer
      · rw [addToSet_cons_pos rest h]
        simp [List.filter_cons, h]
      · rw [addToSet_cons_neg rest h]
        simpa [List.filter_cons, h] using ih

theorem addToSet_length_mem (s : List Stat) (v : Stat)
    (h : ∃ st ∈ s, st.Reviewer = v.Reviewer) :
    (AddToSet s v).length = s.length := by
  induction s with
  | nil => simp at h
  | cons st rest ih =>
      by_cases hc : st.Reviewer = v.Reviewer
      · rw [addToSet_cons_pos rest hc]
        simp
      · rw [addToSet_cons_neg rest hc]
        rcases h with ⟨st', hmem, he⟩
        rcases List.mem_cons.mp hmem with rfl | hmem'
        · exact absurd he hc
        · simp [ih ⟨st', hmem', he⟩]

theorem addToSet_append_not_mem (s : List Stat) (v : Stat)
    (h : ∀ st ∈ s, st.Reviewer ≠ v.Reviewer) :
    AddToSet s v = s ++ [v] := by
  induction s with
  | nil => rfl
  | cons st rest ih =>
      rw [addToSet_cons_neg rest (h st (List.mem_cons_self st rest))]
      rw [ih (fun st' h' => h st' (List.mem_cons_of_mem st h'))]
      rfl

/-- C9: `AddToSet s v` leaves every entry whose reviewer differs from
`v`'s unchanged — same reviewer, same count, same relative position
(the sublist of other-reviewer entries is identical) — and the length
stays the same when `v`'s reviewer is already present, while otherwise
`v` is appended at the end, growing the length by exactly one. -/
theorem addToSet_frame (s : List Stat) (v : Stat) :
    ((AddToSet s v).filter (fun st => decide (st.Reviewer ≠ v.Reviewer))
        = s.filter (fun st => decide (st.Reviewer ≠ v.Reviewer))) ∧
    ((∃ st ∈ s, st.Reviewer = v.Reviewer) → (AddToSet s v).length = s.length) ∧
    ((∀ st ∈ s, st.Reviewer ≠ v.Reviewer) → AddToSet s v = s ++ [v]) :=
  ⟨addToSet_filter_frame s v, addToSet_length_mem s v, addToSet_append_not_mem s v⟩

theorem addToSet_frame_witness :
    (AddToSet [statA, statB] statA1).length = ([statA, statB] : List Stat).length ∧
    AddToSet [statB] statA = [statB] ++ [statA] :=
  ⟨(addToSet_frame [statA, statB] statA1).2.1 (by decide),
   (addToSet_frame [statB] statA).2.2 (by decide)⟩

/-! ## Ranking and truncation in `FindReviewers` -/

theorem take_min_3 (l : List Stat) : l.take (min 3 l.length) = l.take 3 := by
  rcases le_total 3 l.length with h | h
  · rw [min_eq_left h]
  · rw [min_eq_right h, List.take_length, List.take_of_length_le h]

theorem findReviewersResult_fst (sortImpl : List Stat → List Stat)
    (merged : List (List Stat)) :
    (findReviewersResult sortImpl merged).1
      = ((sortImpl (merged.foldl mergeStats [])).take 3).map statString := by
  simp only [findReviewersResult]
  rw [take_min_3]

theorem pairwise_mergeStats (stats : List Stat) : ∀ fs : List Stat,
    fs.Pairwise (fun a b => a.Reviewer ≠ b.Reviewer) →
    (mergeStats fs stats).Pairwise (fun a b => a.Reviewer ≠ b.Reviewer) := by
  induction stats with
  | nil => exact fun fs h => h
  | cons st rest ih =>
      intro fs h
      show (mergeStats (if 0 < st.Reviewer.length then AddToSet fs st else fs) rest).Pairwise _
      by_cases hc : 0 < st.Reviewer.length
      · rw [if_pos hc]
        exact ih (AddToSet fs st) (pairwise_addToSet st h)
      · rw [if_neg hc]
        exact ih fs h

theorem pairwise_finalStats (merged : List (List Stat)) :
    (merged.foldl mergeStats []).Pairwise (fun a b => a.Reviewer ≠ b.Reviewer) := by
  suffices h : ∀ init : List Stat,
      init.Pairwise (fun a b => a.Reviewer ≠ b.Reviewer) →
      (merged.foldl mergeStats init).Pairwise (fun a b => a.Reviewer ≠ b.Reviewer) by
    exact h [] (by simp)
  induction merged with
  | nil => exact fun init h => h
  | cons stats rest ih =>
      intro init h
      exact ih (mergeStats init stats) (pairwise_mergeStats stats init h)

theorem distinctReviewers_eq_length {s : List Stat}
    (h : s.Pairwise (fun a b => a.Reviewer ≠ b.Reviewer)) :
    distinctReviewers s = s.length := by
  unfold distinctReviewers
  rw [List.Nodup.dedup (List.pairwise_map.mpr h), List.length_map]

/-- C4: for every fan-in arrival sequence and every sort conforming to
the `sort.Sort(sort.Reverse(·))` contract, `FindReviewers` returns at
most 3 formatted reviewer lines; it returns fewer than 3 iff the
aggregated collection holds fewer than 3 distinct reviewers; and the
returned lines are the formatted form of the first three sorted stats,
which are ordered by non-increasing commit count. -/
theorem findReviewers_top3 (sortImpl : List Stat → List Stat)
    (merged : List (List Stat))
    (hsort : SortRevSpec (merged.foldl mergeStats [])
      (sortImpl (merged.foldl mergeStats []))) :
    (findReviewersResult sortImpl merged).1.length ≤ 3 ∧
    ((findReviewersResult sortImpl merged).1.length < 3 ↔
      distinctReviewers (merged.foldl mergeStats []) < 3) ∧
    (findReviewersResult sortImpl merged).1
      = ((sortImpl (merged.foldl mergeStats [])).take 3).map statString ∧
    ((sortImpl (merged.foldl mergeStats [])).take 3).Sorted
      (fun a b => b.Count ≤ a.Count) := by
  obtain ⟨hperm, hsorted⟩ := hsort
  have hfst := findReviewersResult_fst sortImpl merged
  have hlen : (findReviewersResult sortImpl merged).1.length
      = min 3 (sortImpl (merged.foldl mergeStats [])).length := by
    rw [hfst, List.length_map, List.length_take]
  have hl : (sortImpl (merged.foldl mergeStats [])).length
      = (merged.foldl mergeStats []).length := hperm.length_eq.symm
  refine ⟨?_, ?_, hfst, ?_⟩
  · rw [hlen]
    exact min_le_left 3 _
  · rw [hlen, distinctReviewers_eq_length (pairwise_finalStats merged), ← hl,
      Nat.min_def]
    split <;> omega
  · exact List.Pairwise.sublist (List.take_sublist 3 _) hsorted

theorem findReviewers_top3_witness :
    SortRevSpec (mergedW.foldl mergeStats []) (id (mergedW.foldl mergeStats [])) ∧
    ((findReviewersResult id mergedW).1.length ≤ 3 ∧
      ((findReviewersResult id mergedW).1.length < 3 ↔
        distinctReviewers (mergedW.foldl mergeStats []) < 3) ∧
      (findReviewersResult id mergedW).1
        = ((id (mergedW.foldl mergeStats [])).take 3).map statString ∧
      ((id (mergedW.foldl mergeStats [])).take 3).Sorted
        (fun a b => b.Count ≤ a.Count)) :=
  ⟨⟨by decide, by decide⟩, findReviewers_top3 id mergedW ⟨by decide, by decide⟩⟩

/-! ## Error handling in `FindReviewers` -/

/-- C2 (amended): for every sequence of per-path query outcomes —
including ones in which some query fails — the error component returned
by `FindReviewers` is `nil`: the fan-in channel carries only `Stats`
values, and the function's sole return statement is
`return results, nil`, so per-path failures are silently discarded
rather than propagated. -/
theorem findReviewers_error_always_nil (sortImpl : List Stat → List Stat)
    (outcomes : List (Except GoStr (List Stat))) :
    (findReviewersResult sortImpl (mergeChansModel outcomes)).2 = none := rfl

/-- C2 counterexample: a concrete run in which the first per-path query
succeeds with one stat for alice and the second fails with a git error.
`FindReviewers` returns the formatted line for alice together with a
`nil` error — the failure is never surfaced as a non-nil error. -/
theorem findReviewers_error_dropped_concrete :
    findReviewersResult id
        (mergeChansModel [Except.ok [statA], Except.error "exit status 128".data])
      = (["  2\talice".data], none) := by
  decide

/-! ## Line processing in `FindFiles` -/

theorem dropWhile_idem (p : Char → Bool) (l : List Char) :
    (l.dropWhile p).dropWhile p = l.dropWhile p := by
  induction l with
  | nil => rfl
  | cons a l ih =>
      by_cases h : p a
      · simp [List.dropWhile_cons, h, ih]
      · simp [List.dropWhile_cons, h]

theorem dropWhile_of_prefix (p : Char → Bool) (l m : List Char)
    (hl : l.dropWhile p = l) (hm : m <+: l) : m.dropWhile p = m := by
  cases m with
  | nil => rfl
  | cons a m' =>
      cases l with
      | nil => exact absurd (List.IsPrefix.length_le hm) (by simp)
      | cons b l' =>
          obtain ⟨t, ht⟩ := hm
          injection ht with h1 h2
          subst h1
          by_cases hb : p a
          · exfalso
            rw [List.dropWhile_cons, if_pos hb] at hl
            have hle := (List.dropWhile_sublist (l := l') p).length_le
            have := congrArg List.length hl
            simp at this
            omega
          · simp [List.dropWhile_cons, hb]

theorem trimSpaces_idem (s : GoStr) : trimSpaces (trimSpaces s) = trimSpaces s := by
  unfold trimSpaces
  have h1 : ((((s.dropWhile (· == ' ')).reverse.dropWhile (· == ' ')).reverse).dropWhile
      (· == ' ')) = ((s.dropWhile (· == ' ')).reverse.dropWhile (· == ' ')).reverse := by
    apply dropWhile_of_prefix (· == ' ') (s.dropWhile (· == ' '))
    · exact dropWhile_idem (· == ' ') s
    · have h2 := List.reverse_prefix.mpr
        (List.dropWhile_suffix (l := (s.dropWhile (· == ' ')).reverse) (· == ' '))
      rw [List.reverse_reverse] at h2
      exact h2
  rw [h1, List.reverse_reverse, dropWhile_idem]

/-- C8 (amended): every path returned by the line processing of
`FindFiles` is non-empty and space-trimmed, and is the space-trimmed
form of a diff-output line that the filter policy accepted; the filters
are applied to the RAW untrimmed line, not to the returned trimmed
path. -/
theorem findFilesLines_spec (opts : Reviewer) (out : GoStr) (p : GoStr)
    (hp : p ∈ findFilesLines opts out) :
    p ≠ [] ∧ trimSpaces p = p ∧
    ∃ line ∈ out.splitOn '\n', p = trimSpaces line ∧
      considerExt line opts = true ∧ considerPath line opts = true := by
  unfold findFilesLines at hp
  rcases List.mem_filterMap.mp hp with ⟨line, hline, hsome⟩
  dsimp only at hsome
  by_cases hc : 0 < (trimSpaces line).length ∧ considerExt line opts = true ∧
      considerPath line opts = true
  · rw [if_pos hc] at hsome
    injection hsome with hsome
    subst hsome
    refine ⟨List.length_pos.mp hc.1, trimSpaces_idem line, line, hline, rfl,
      hc.2.1, hc.2.2⟩
  · rw [if_neg hc] at hsome
    exact absurd hsome (by simp)

theorem findFilesLines_spec_witness :
    ("a.go".data ∈ findFilesLines noFilterOpts "a.go\n".data) ∧
    ("a.go".data ≠ ([] : GoStr) ∧ trimSpaces "a.go".data = "a.go".data ∧
      ∃ line ∈ ("a.go\n".data).splitOn '\n', "a.go".data = trimSpaces line ∧
        considerExt line noFilterOpts = true ∧ considerPath line noFilterOpts = true) :=
  ⟨by decide, findFilesLines_spec noFilterOpts "a.go\n".data "a.go".data (by decide)⟩

/-- C8 counterexample: on the diff output `"b.json \n"` — a line with a
trailing space — the line processing of `FindFiles` returns the trimmed
path `"b.json"`, because the RAW line `"b.json "` passes the extension
filter (it does not end in any ignored extension); yet the returned
trimmed path itself is REJECTED by the extension filter, refuting the
claim that every returned path is accepted by the filter policy. -/
theorem findFiles_returns_filtered_out_path :
    findFilesLines noFilterOpts "b.json \n".data = ["b.json".data] ∧
    considerExt "b.json".data noFilterOpts = false := by
  decide

end GitReviewers
